import Mathlib

/-!
Verification of the ALS collaborative-filtering module (src/ALS/ALS.go).

Matrices are modelled after go.matrix's DenseMatrix: a flat row-major
element slice together with row and column counts.  All matrices this
program constructs are contiguous (step = cols), so element (i, j) lives
at flat index i * cols + j.  float64 arithmetic is modelled by exact
rationals; NaN is modelled, where a claim needs it, by Option ℚ with
none standing for NaN.  Go panics (nil dereference, out-of-range index)
are modelled by Option-valued functions returning none.  In-place
mutation through the shared backing array is modelled by state passing:
a function that overwrites one of its arguments returns the overwritten
value alongside its result.
-/

/-- go.matrix DenseMatrix: flat row-major elements plus dimensions.
go.matrix's MakeDenseMatrix performs no length check, so the element list
may be longer (or shorter) than rows * cols; accesses go through the
rows * cols window. -/
structure DenseMatrix (α : Type) where
  elements : List α
  rows : ℕ
  cols : ℕ
  deriving DecidableEq

/-- Matrices of (finite) float values, modelled as rationals. -/
abbrev DM := DenseMatrix ℚ

/-- float64 with NaN: none is NaN, some q a finite value. -/
abbrev GoFloat := Option ℚ

/-- go.matrix Array(): the rows*cols viewed region of the backing slice
(for a contiguous matrix this is elements[0 : rows*cols]). -/
def DenseMatrix.arrayGo {α : Type} (M : DenseMatrix α) : List α :=
  M.elements.take (M.rows * M.cols)

/-- go.matrix Get for a contiguous matrix: element at flat index i*cols+j. -/
def DenseMatrix.get (M : DM) (i j : ℕ) : ℚ :=
  M.elements.getD (i * M.cols + j) 0

/-- Element access for NaN-carrying matrices. -/
def DenseMatrix.getO (M : DenseMatrix GoFloat) (i j : ℕ) : GoFloat :=
  M.elements.getD (i * M.cols + j) none

/-- A matrix whose backing slice has exactly rows*cols elements (every
matrix go.matrix itself builds is of this form). -/
abbrev DenseMatrix.wf {α : Type} (M : DenseMatrix α) : Prop :=
  M.elements.length = M.rows * M.cols

/-- Row-major element list of an r × c matrix with entry function f,
as produced by the nested row/column loops of the Go code. -/
def mkElems (r c : ℕ) (f : ℕ → ℕ → ℚ) : List ℚ :=
  (List.range r).flatMap fun i => (List.range c).map fun j => f i j

/-- go.matrix MakeDenseMatrix: wraps a slice with dimensions, no check. -/
def MakeDenseMatrix (elements : List ℚ) (rows cols : ℕ) : DM :=
  ⟨elements, rows, cols⟩

/-- go.matrix Transpose: a fresh contiguous matrix with entries flipped. -/
def transposeDM (M : DM) : DM :=
  MakeDenseMatrix (mkElems M.cols M.rows fun i j => M.get j i) M.cols M.rows

/-- go.matrix Copy: a fresh contiguous matrix with the same viewed entries. -/
def copyDM (M : DM) : DM :=
  MakeDenseMatrix M.arrayGo M.rows M.cols

/-- go.matrix SwapRows i j (result of; the Go call mutates in place). -/
def swapRowsDM (M : DM) (a b : ℕ) : DM :=
  MakeDenseMatrix
    (mkElems M.rows M.cols fun i j =>
      if i = a then M.get b j else if i = b then M.get a j else M.get i j)
    M.rows M.cols

/-- go.matrix Eye n: the n × n identity matrix. -/
def eyeDM (n : ℕ) : DM :=
  MakeDenseMatrix (mkElems n n fun i j => if i = j then 1 else 0) n n

/-- go.matrix Scale c (result of; the Go call mutates in place). -/
def scaleDM (c : ℚ) (M : DM) : DM :=
  MakeDenseMatrix (mkElems M.rows M.cols fun i j => c * M.get i j) M.rows M.cols

/-- Matrix product entries (the computation go.matrix TimesDense performs
once the dimension check has passed). -/
def timesP (A B : DM) : DM :=
  MakeDenseMatrix
    (mkElems A.rows B.cols fun i j => ∑ l ∈ Finset.range A.cols, A.get i l * B.get l j)
    A.rows B.cols

/-- go.matrix TimesDense: returns an error (modelled none, since every
caller here dereferences the nil result) when inner dimensions mismatch. -/
def timesDense (A B : DM) : Option DM :=
  if A.cols = B.rows then some (timesP A B) else none

/-- go.matrix AddDense as used by the Go code, which discards its error:
on a dimension mismatch the receiver is left unchanged. -/
def addDenseGo (A B : DM) : DM :=
  if A.rows = B.rows ∧ A.cols = B.cols then
    MakeDenseMatrix (mkElems A.rows A.cols fun i j => A.get i j + B.get i j) A.rows A.cols
  else A

/-- go.matrix SubtractDense with the error discarded (GetError and Predict
both ignore it): on a dimension mismatch the receiver is left unchanged. -/
def subDenseGo (A B : DM) : DM :=
  if A.rows = B.rows ∧ A.cols = B.cols then
    MakeDenseMatrix (mkElems A.rows A.cols fun i j => A.get i j - B.get i j) A.rows A.cols
  else A

/-- SumMatrix (ALS.go lines 84-91): adds up the viewed elements, sum
initialised to 0. -/
def SumMatrix (mat : DM) : ℚ :=
  mat.arrayGo.foldl (fun sum v => sum + v) 0

/-- SwapCols (ALS.go lines 94-100): copy, transpose, SwapRows, transpose.
go.matrix SwapRows panics when an index is out of range (modelled none). -/
def SwapCols (mat : DM) (i j : ℕ) : Option DM :=
  if i < mat.cols ∧ j < mat.cols then
    some (transposeDM (swapRowsDM (transposeDM (copyDM mat)) i j))
  else none

/-- SimpleTimes (ALS.go lines 118-128): nil (none) when the viewed arrays
have different lengths, else the elementwise product, shaped like mat.
The Go code writes the products into mat's own backing array, so the
caller's mat is overwritten with the returned values (see GetError). -/
def SimpleTimes (mat weight : DM) : Option DM :=
  if mat.arrayGo.length = weight.arrayGo.length then
    some (MakeDenseMatrix (List.zipWith (fun m w => w * m) mat.arrayGo weight.arrayGo)
      mat.rows mat.cols)
  else none

/-- MakeWeightMatrix (ALS.go lines 23-34): entry 0 where the rating is
the missing sentinel (0.0 or NaN), else 1. -/
def MakeWeightMatrix (mat : DenseMatrix GoFloat) : DM :=
  ⟨mat.arrayGo.map fun v => if v = some 0 ∨ v = none then 0 else 1, mat.rows, mat.cols⟩

/-- View of a NaN-free matrix as a GoFloat matrix (Q matrices fed to ALS
are modelled NaN-free, so every entry is a finite value). -/
def toNaNFree (Q : DM) : DenseMatrix GoFloat :=
  ⟨Q.elements.map some, Q.rows, Q.cols⟩

/-- MakeXY (ALS.go lines 37-51): X is rows × n_factors, Y is
n_factors × cols, filled with 5 * rand.Float64() draws.  rnd models the
successive outputs of rand.Float64: X consumes draws 0..rows*n_factors-1,
Y the following cols*n_factors draws. -/
def MakeXY (mat : DM) (n_factors : ℕ) (rnd : ℕ → ℚ) : DM × DM :=
  let X_data := (List.range (mat.rows * n_factors)).map fun i => 5 * rnd i
  let Y_data := (List.range (mat.cols * n_factors)).map fun j =>
    5 * rnd (mat.rows * n_factors + j)
  (MakeDenseMatrix X_data mat.rows n_factors, MakeDenseMatrix Y_data n_factors mat.cols)

/-- Determinant by Laplace expansion along the first row; executable, and
proved below to agree with Mathlib's Matrix.det. -/
def detN : (n : ℕ) → (Fin n → Fin n → ℚ) → ℚ
  | 0, _ => 1
  | n + 1, A =>
      ∑ j : Fin (n + 1), (-1) ^ (j : ℕ) * A 0 j * detN n fun p q => A p.succ (j.succAbove q)

/-- Determinant of the viewed square region of a flat matrix. -/
def detFlat (M : DM) : ℚ :=
  detN M.rows fun p q => M.get p q

/-- go.matrix SolveDense contract: solve mat · X = b.  Fails (error) when
mat is not square, the shapes mismatch, or mat is singular.  The solution
entries are written by Cramer's rule, which agrees with any exact solve. -/
def solveDense (mat b : DM) : Option DM :=
  if mat.rows = mat.cols ∧ b.rows = mat.rows ∧ detFlat mat ≠ 0 then
    some (MakeDenseMatrix
      (mkElems mat.rows b.cols fun i c =>
        (detFlat mat)⁻¹ *
          detN mat.rows fun p q => if (q : ℕ) = i then b.get p c else mat.get p q)
      mat.rows b.cols)
  else none

/-- Value go.matrix hands back alongside a SolveDense error: a b-shaped
matrix of unspecified entries (the partially eliminated right-hand side).
The entries are modelled as zeros; no claim below depends on them. -/
def junkDM (b : DM) : DM :=
  MakeDenseMatrix (List.replicate (b.rows * b.cols) 0) b.rows b.cols

/-- SolveDense as the Go code calls it, with the error discarded
(firstRow, _ := mat.SolveDense(outcome)). -/
def solveDenseGo (mat b : DM) : DM :=
  (solveDense mat b).getD (junkDM b)

/-- Loop of MatrixSolver (ALS.go lines 108-113) over column indices
1..mat.Cols()-1: copy mat, swap columns 0 and i of outcome, solve again
(error discarded), append the whole solution array. -/
def matrixSolverLoop (mat outcome : DM) : List ℕ → Option (List ℚ)
  | [] => some []
  | i :: rest => do
      let matrix := copyDM mat
      let swapped ← SwapCols outcome 0 i
      let value := solveDenseGo matrix swapped
      let tail ← matrixSolverLoop mat outcome rest
      pure (value.arrayGo ++ tail)

/-- MatrixSolver (ALS.go lines 104-115): first solve of the full outcome,
then one further full solve per column swap, all appended and rewrapped
as a mat.Rows() × mat.Cols() matrix (no length check). -/
def MatrixSolver (mat outcome : DM) : Option DM := do
  let firstRow := solveDenseGo mat outcome
  let tail ← matrixSolverLoop mat outcome ((List.range mat.cols).drop 1)
  pure (MakeDenseMatrix (firstRow.arrayGo ++ tail) mat.rows mat.cols)

/-- Module-level regularisation constant (ALS.go line 13): lambda = 0.1. -/
def lambda : ℚ := 1 / 10

/-- The scaled identity built at the top of each ALS iteration
(I := Eye(n_factors); I.Scale(lambda)). -/
def lamEye (n_factors : ℕ) : DM :=
  scaleDM lambda (eyeDM n_factors)

/-- System matrix of the X half-step: Y·Yᵗ + lambda·I (ALS.go 153-157). -/
def alsA (n_factors : ℕ) (Y : DM) : DM :=
  addDenseGo (timesP Y (transposeDM Y)) (lamEye n_factors)

/-- Right-hand side of the X half-step: Y·Qᵗ (ALS.go line 158). -/
def alsB (Q Y : DM) : DM :=
  timesP Y (transposeDM Q)

/-- System matrix of the Y half-step: X·Xᵗ + lambda·I (ALS.go 165-167),
where X is the intermediate transposed solve result of the X half-step. -/
def alsA' (n_factors : ℕ) (Xint : DM) : DM :=
  addDenseGo (timesP Xint (transposeDM Xint)) (lamEye n_factors)

/-- Right-hand side of the Y half-step: X·Q (ALS.go line 168). -/
def alsB' (Q Xint : DM) : DM :=
  timesP Xint Q

/-- One iteration of the ALS loop body (ALS.go lines 148-171), with every
TimesDense error leading to a nil dereference (none) exactly as in the
source, and AddDense / SolveDense errors discarded as in the source. -/
def alsStep (Q : DM) (n_factors : ℕ) (XY : DM × DM) : Option (DM × DM) := do
  let Y := XY.2
  let I := lamEye n_factors
  let Y_dot ← timesDense Y (transposeDM Y)
  let Y_dot := addDenseGo Y_dot I
  let X_toSolve ← timesDense Y (transposeDM Q)
  let X ← MatrixSolver Y_dot X_toSolve
  let X := transposeDM X
  let X_dot ← timesDense X (transposeDM X)
  let X_dot := addDenseGo X_dot I
  let Y_toSolve ← timesDense X Q
  let Ysol ← MatrixSolver X_dot Y_toSolve
  let Y2 := transposeDM Ysol
  let X2 := transposeDM X
  pure (X2, Y2)

/-- The for-loop of ALS: iterations runs of the body, no other exit. -/
def alsLoop (Q : DM) (n_factors : ℕ) : ℕ → DM × DM → Option (DM × DM)
  | 0, XY => some XY
  | n + 1, XY => do alsLoop Q n_factors n (← alsStep Q n_factors XY)

/-- ALS (ALS.go lines 143-174).  The weight matrix W is built and never
used (line 145); the loop runs exactly iterations times; the result is
X·Y for the final X, Y. -/
def ALS (Q : DM) (iterations n_factors : ℕ) (rnd : ℕ → ℚ) : Option DM := do
  let XY := MakeXY Q n_factors rnd
  let _W := MakeWeightMatrix (toNaNFree Q)
  let XY2 ← alsLoop Q n_factors iterations XY
  timesDense XY2.1 XY2.2

/-- Closed form of the loop state after n iterations (the getD default is
never taken in the square regime the theorems below work in). -/
def alsTrace (Q : DM) (n_factors : ℕ) (rnd : ℕ → ℚ) (n : ℕ) : DM × DM :=
  (fun XY => (alsStep Q n_factors XY).getD XY)^[n] (MakeXY Q n_factors rnd)

/-- GetError (ALS.go lines 131-140).  Returns the error value together
with the caller-visible final state of Q: Q.SubtractDense(dot) overwrites
Q with Q − X·Y, SimpleTimes(Q, W) then overwrites it (through the shared
backing array returned by Array()) with W ⊙ (Q − X·Y), and
SimpleTimes(Prod, Prod) — Prod sharing that same storage — squares it.
The second component is therefore also exactly tosum. -/
def GetError (W Q X Y : DM) : Option (ℚ × DM) := do
  let dot ← timesDense X Y
  let Qsub := subDenseGo Q dot
  let Prod ← SimpleTimes Qsub W
  let tosum ← SimpleTimes Prod Prod
  pure (SumMatrix tosum, tosum)

/-- MatrixMinMinus (ALS.go lines 177-189): subtract from every viewed
element the running minimum computed with initial value 100 (so entries
above 100 are ignored by the minimum). -/
def MatrixMinMinus (mat : DM) : DM :=
  let values := mat.arrayGo
  let minv := values.foldl (fun m v => if v < m then v else m) 100
  MakeDenseMatrix (values.map fun v => v - minv) mat.rows mat.cols

/-- MatrixMax (ALS.go lines 192-201): running maximum with initial
value 0 over the viewed elements. -/
def MatrixMax (mat : DM) : ℚ :=
  mat.arrayGo.foldl (fun m v => if v > m then v else m) 0

/-- Loop of argmax (ALS.go lines 204-214): idx is the running position,
index the best position so far, first the best value so far. -/
def argmaxAux : List ℚ → ℕ → ℕ → ℚ → ℕ
  | [], _, index, _ => index
  | val :: rest, idx, index, first =>
      if val > first then argmaxAux rest (idx + 1) idx val
      else argmaxAux rest (idx + 1) index first

/-- argmax (ALS.go lines 204-214): first index with the strictly greatest
value, 0 the implicit initial best. -/
def argmax (args : List ℚ) : ℕ :=
  argmaxAux args 0 0 0

/-- go.matrix rowSlice for a contiguous matrix: the i-th row of the
backing slice. -/
def rowSlice (M : DM) (i : ℕ) : List ℚ :=
  (M.elements.drop (i * M.cols)).take M.cols

/-- The adjusted score matrix Predict builds (ALS.go lines 217-224):
copy Q_hat, subtract the (100-capped) minimum, rescale so the maximum
matches MatrixMax Q, subtract the W mask scaled by MatrixMax Q.
Division is exact rational division; the Go float division by a zero
MatrixMax (a constant Q_hat) is not modelled and not exercised below. -/
def predictAdjusted (W Q Q_hat : DM) : DM :=
  let Qhat := copyDM Q_hat
  let Qhat := MatrixMinMinus Qhat
  let maxRating := MatrixMax Q
  let qhatMax := maxRating / MatrixMax Qhat
  let Qhat := scaleDM qhatMax Qhat
  subDenseGo Qhat (scaleDM maxRating W)

/-- Caller-visible state of W after Predict: the single Go statement
W.Scale(maxRating) overwrites the caller's W in place. -/
def predictW (W Q : DM) : DM :=
  scaleDM (MatrixMax Q) W

/-- Predict (ALS.go lines 216-234): builds the adjusted matrix, scales W
in place, then — reading Q_hat, the UNADJUSTED argument, via rowSlice on
line 229 — returns the argmax of each raw Q_hat row.  First component:
the returned indices; second component: the caller-visible final W. -/
def Predict (W Q Q_hat : DM) : List ℕ × DM :=
  let Qhat := predictAdjusted W Q Q_hat
  (((List.range Qhat.rows).map fun i => argmax (rowSlice Q_hat i)), predictW W Q)

/-! ### List and mkElems support lemmas -/

theorem getD_of_lt {α : Type} (l : List α) (d : α) (n : ℕ) (h : n < l.length) :
    l.getD n d = l[n] := by
  simp [List.getD_eq_getElem?_getD, List.getElem?_eq_getElem h]

theorem getD_of_le {α : Type} (l : List α) (d : α) (n : ℕ) (h : l.length ≤ n) :
    l.getD n d = d := by
  simp [List.getD_eq_getElem?_getD, List.getElem?_eq_none h]

theorem getD_append_lt {α : Type} (l l' : List α) (d : α) (n : ℕ) (h : n < l.length) :
    (l ++ l').getD n d = l.getD n d := by
  rw [getD_of_lt _ _ _ (by simp; omega), getD_of_lt _ _ _ h]
  exact List.getElem_append_left h

theorem getD_append_ge {α : Type} (l l' : List α) (d : α) (n : ℕ) (h : l.length ≤ n) :
    (l ++ l').getD n d = l'.getD (n - l.length) d := by
  by_cases h2 : n - l.length < l'.length
  · rw [getD_of_lt _ _ _ (by simp; omega), getD_of_lt _ _ _ h2]
    exact List.getElem_append_right h
  · rw [getD_of_le _ _ _ (by simp; omega), getD_of_le _ _ _ (by omega)]

theorem getD_take_lt {α : Type} (l : List α) (d : α) (m n : ℕ) (h : n < m) :
    (l.take m).getD n d = l.getD n d := by
  by_cases h2 : n < l.length
  · rw [getD_of_lt _ _ _ (by simp; omega), getD_of_lt _ _ _ h2]
    simp
  · rw [getD_of_le _ _ _ (by simp; omega), getD_of_le _ _ _ (by omega)]

theorem row_major_lt {r c i j : ℕ} (hi : i < r) (hj : j < c) : i * c + j < r * c := by
  calc i * c + j < i * c + c := by omega
    _ = (i + 1) * c := by ring
    _ ≤ r * c := Nat.mul_le_mul_right c hi

theorem mkElems_succ (r c : ℕ) (f : ℕ → ℕ → ℚ) :
    mkElems (r + 1) c f = mkElems r c f ++ (List.range c).map (f r) := by
  simp [mkElems, List.range_succ]

theorem length_mkElems (r c : ℕ) (f : ℕ → ℕ → ℚ) : (mkElems r c f).length = r * c := by
  induction r with
  | zero => simp [mkElems]
  | succ n ih => rw [mkElems_succ]; simp [ih]; ring

theorem getD_mkElems (r c : ℕ) (f : ℕ → ℕ → ℚ) (i j : ℕ) (hi : i < r) (hj : j < c) :
    (mkElems r c f).getD (i * c + j) 0 = f i j := by
  induction r with
  | zero => omega
  | succ n ih =>
      rw [mkElems_succ]
      rcases Nat.lt_succ_iff_lt_or_eq.mp hi with h | h
      · rw [getD_append_lt _ _ _ _ (by rw [length_mkElems]; exact row_major_lt h hj)]
        exact ih h
      · subst h
        rw [getD_append_ge]
        · rw [length_mkElems]
          have : i * c + j - i * c = j := by omega
          rw [this, getD_of_lt _ _ _ (by simpa using hj)]
          simp
        · rw [length_mkElems]; omega

theorem mkElems_congr (r c : ℕ) (f g : ℕ → ℕ → ℚ)
    (h : ∀ i j, i < r → j < c → f i j = g i j) : mkElems r c f = mkElems r c g := by
  induction r with
  | zero => simp [mkElems]
  | succ n ih =>
      rw [mkElems_succ, mkElems_succ, ih fun i j hi hj => h i j (by omega) hj]
      congr 1
      exact List.map_congr_left fun j hj =>
        h n j (by omega) (List.mem_range.mp hj)

theorem sum_list_range (c : ℕ) (g : ℕ → ℚ) :
    ((List.range c).map g).sum = ∑ j ∈ Finset.range c, g j := by
  induction c with
  | zero => simp
  | succ n ih => rw [List.range_succ, Finset.sum_range_succ]; simp [ih]

theorem sum_mkElems (r c : ℕ) (f : ℕ → ℕ → ℚ) :
    (mkElems r c f).sum = ∑ i ∈ Finset.range r, ∑ j ∈ Finset.range c, f i j := by
  induction r with
  | zero => simp [mkElems]
  | succ n ih =>
      rw [mkElems_succ, List.sum_append, Finset.sum_range_succ, ih, sum_list_range]

theorem foldl_add_eq (l : List ℚ) (a : ℚ) :
    l.foldl (fun sum v => sum + v) a = a + l.sum := by
  induction l generalizing a with
  | nil => simp
  | cons x xs ih => simp [ih]; ring

theorem sum_eq_sum_getD (l : List ℚ) :
    l.sum = ∑ n ∈ Finset.range l.length, l.getD n 0 := by
  induction l with
  | nil => simp
  | cons x xs ih =>
      rw [List.sum_cons, List.length_cons, Finset.sum_range_succ', ih]
      simp [Rat.add_comm]

theorem getD_zipWith (f : ℚ → ℚ → ℚ) (l1 l2 : List ℚ) (n : ℕ)
    (h1 : n < l1.length) (h2 : n < l2.length) :
    (List.zipWith f l1 l2).getD n 0 = f (l1.getD n 0) (l2.getD n 0) := by
  induction l1 generalizing l2 n with
  | nil => simp at h1
  | cons x xs ih =>
      cases l2 with
      | nil => simp at h2
      | cons y ys =>
          cases n with
          | zero => simp
          | succ m =>
              simp only [List.zipWith_cons_cons, List.getD_cons_succ]
              exact ih ys m (by simpa using h1) (by simpa using h2)

theorem sum_range_mul (r c : ℕ) (g : ℕ → ℚ) :
    ∑ n ∈ Finset.range (r * c), g n
      = ∑ i ∈ Finset.range r, ∑ j ∈ Finset.range c, g (i * c + j) := by
  induction r with
  | zero => simp
  | succ n ih =>
      have hsplit : (n + 1) * c = n * c + c := by ring
      rw [hsplit, Finset.range_eq_Ico,
        ← Finset.sum_Ico_consecutive g (Nat.zero_le (n * c)) (Nat.le_add_right _ c),
        ← Finset.range_eq_Ico, ih, Finset.sum_Ico_eq_sum_range, Finset.sum_range_succ]
      have hc : n * c + c - n * c = c := by omega
      rw [hc]

/-! ### Matrix-level support lemmas -/

theorem arrayGo_of_wf {α : Type} (M : DenseMatrix α) (h : M.wf) : M.arrayGo = M.elements := by
  rw [DenseMatrix.arrayGo, ← h, List.take_length]

theorem get_eq_getD_arrayGo (M : DM) (i j : ℕ) (hi : i < M.rows) (hj : j < M.cols) :
    M.get i j = M.arrayGo.getD (i * M.cols + j) 0 := by
  rw [DenseMatrix.get, DenseMatrix.arrayGo, getD_take_lt _ _ _ _ (row_major_lt hi hj)]

theorem elements_eq_mkElems_of_wf (M : DM) (h : M.wf) :
    M.elements = mkElems M.rows M.cols M.get := by
  rcases Nat.eq_zero_or_pos M.cols with hc | hc
  · have : M.elements.length = 0 := by rw [h, hc]; ring
    have h2 : (mkElems M.rows M.cols M.get).length = 0 := by
      rw [length_mkElems, hc]; ring
    rw [List.length_eq_zero.mp this, Eq.symm (List.length_eq_zero.mp h2)]
  · apply List.ext_getElem (by rw [length_mkElems]; exact h)
    intro n h1 h2
    have hn : n < M.rows * M.cols := by rw [← h]; exact h1
    have hi : n / M.cols < M.rows := Nat.div_lt_of_lt_mul (by rw [Nat.mul_comm]; exact hn)
    have hj : n % M.cols < M.cols := Nat.mod_lt _ hc
    have hrepr : n = n / M.cols * M.cols + n % M.cols := by
      rw [Nat.mul_comm]; exact (Nat.div_add_mod n M.cols).symm
    rw [← getD_of_lt _ 0 _ h1, ← getD_of_lt _ 0 _ h2]
    conv_lhs => rw [hrepr]
    conv_rhs => rw [hrepr]
    rw [getD_mkElems _ _ _ _ _ hi hj]
    rfl

/-! ### Determinant bridge and solve correctness -/

theorem detN_eq_det : ∀ (n : ℕ) (A : Fin n → Fin n → ℚ), detN n A = (Matrix.of A).det
  | 0, _ => by simp [detN, Matrix.det_fin_zero]
  | n + 1, A => by
      rw [Matrix.det_succ_row_zero]
      simp only [detN]
      refine Finset.sum_congr rfl fun j _ => ?_
      rw [detN_eq_det n]
      rfl

theorem detN_updateColumn (n : ℕ) (A : Fin n → Fin n → ℚ) (b : Fin n → ℚ) (l : Fin n) :
    (detN n fun p q => if (q : ℕ) = (l : ℕ) then b p else A p q)
      = Matrix.cramer (Matrix.of A) b l := by
  rw [Matrix.cramer_apply, detN_eq_det]
  congr 1
  ext p q
  rw [Matrix.updateColumn_apply]
  simp [Fin.val_eq_val]

theorem cramer_sum (n : ℕ) (A : Fin n → Fin n → ℚ) (hdet : detN n A ≠ 0) (b : Fin n → ℚ)
    (i : Fin n) :
    ∑ l : Fin n, A i l * ((detN n A)⁻¹ *
      detN n fun p q => if (q : ℕ) = (l : ℕ) then b p else A p q) = b i := by
  have h1 : ∀ l : Fin n, A i l * ((detN n A)⁻¹ *
      detN n fun p q => if (q : ℕ) = (l : ℕ) then b p else A p q)
      = (detN n A)⁻¹ * (A i l * Matrix.cramer (Matrix.of A) b l) := by
    intro l; rw [detN_updateColumn]; ring
  rw [Finset.sum_congr rfl (fun l _ => h1 l), ← Finset.mul_sum]
  have h2 : ∑ l : Fin n, A i l * Matrix.cramer (Matrix.of A) b l
      = Matrix.mulVec (Matrix.of A) (Matrix.cramer (Matrix.of A) b) i := by
    simp [Matrix.mulVec, Matrix.dotProduct]
  rw [h2, Matrix.mulVec_cramer, Pi.smul_apply, smul_eq_mul, ← detN_eq_det,
    inv_mul_cancel_left₀ hdet]

theorem solveDense_some (mat b : DM) (hsq : mat.rows = mat.cols) (hb : b.rows = mat.rows)
    (hdet : detFlat mat ≠ 0) :
    solveDense mat b = some (MakeDenseMatrix
      (mkElems mat.rows b.cols fun i c =>
        (detFlat mat)⁻¹ *
          detN mat.rows fun p q => if (q : ℕ) = i then b.get p c else mat.get p q)
      mat.rows b.cols) := by
  rw [solveDense, if_pos ⟨hsq, hb, hdet⟩]

theorem solveDenseGo_entry (mat b : DM) (hsq : mat.rows = mat.cols) (hb : b.rows = mat.rows)
    (hdet : detFlat mat ≠ 0) (i c : ℕ) (hi : i < mat.rows) (hc : c < b.cols) :
    ∑ l ∈ Finset.range mat.rows, mat.get i l * (solveDenseGo mat b).get l c = b.get i c := by
  rw [solveDenseGo, solveDense_some mat b hsq hb hdet, Option.getD_some]
  have hget : ∀ l, l < mat.rows →
      (MakeDenseMatrix
        (mkElems mat.rows b.cols fun i' c' =>
          (detFlat mat)⁻¹ *
            detN mat.rows fun p q => if (q : ℕ) = i' then b.get p c' else mat.get p q)
        mat.rows b.cols).get l c
      = (detFlat mat)⁻¹ *
          detN mat.rows fun p q => if (q : ℕ) = l then b.get p c else mat.get p q := by
    intro l hl
    exact getD_mkElems _ _ _ _ _ hl hc
  have hstep : ∀ l ∈ Finset.range mat.rows, mat.get i l *
      (MakeDenseMatrix
        (mkElems mat.rows b.cols fun i' c' =>
          (detFlat mat)⁻¹ *
            detN mat.rows fun p q => if (q : ℕ) = i' then b.get p c' else mat.get p q)
        mat.rows b.cols).get l c
      = mat.get i l * ((detFlat mat)⁻¹ *
          detN mat.rows fun p q => if (q : ℕ) = l then b.get p c else mat.get p q) :=
    fun l hl => by rw [hget l (Finset.mem_range.mp hl)]
  rw [Finset.sum_congr rfl hstep, ← Fin.sum_univ_eq_sum_range]
  exact cramer_sum mat.rows (fun p q => mat.get p q) hdet (fun p => b.get p c) ⟨i, hi⟩

theorem solveDenseGo_shape (mat b : DM) (hro : b.rows = mat.rows) :
    (solveDenseGo mat b).rows = mat.rows ∧ (solveDenseGo mat b).cols = b.cols ∧
      (solveDenseGo mat b).wf := by
  rw [solveDenseGo, solveDense]
  split
  · simp [MakeDenseMatrix, DenseMatrix.wf, length_mkElems]
  · simp [junkDM, MakeDenseMatrix, DenseMatrix.wf, hro]

theorem matrixSolverLoop_some (mat outcome : DM) (L : List ℕ)
    (hL : ∀ i ∈ L, i < outcome.cols) : ∃ t, matrixSolverLoop mat outcome L = some t := by
  induction L with
  | nil => exact ⟨[], rfl⟩
  | cons i rest ih =>
      obtain ⟨t, ht⟩ := ih fun j hj => hL j (by simp [hj])
      have hi : i < outcome.cols := hL i (by simp)
      have h0 : 0 < outcome.cols := by omega
      refine ⟨(solveDenseGo (copyDM mat)
          (transposeDM (swapRowsDM (transposeDM (copyDM outcome)) 0 i))).arrayGo ++ t, ?_⟩
      simp [matrixSolverLoop, SwapCols, h0, hi, ht]

theorem matrixSolver_spec (mat outcome : DM) (hro : outcome.rows = mat.rows)
    (hco : outcome.cols = mat.cols) :
    ∃ R, MatrixSolver mat outcome = some R ∧ R.rows = mat.rows ∧ R.cols = mat.cols ∧
      ∀ i c, i < mat.rows → c < mat.cols → R.get i c = (solveDenseGo mat outcome).get i c := by
  obtain ⟨t, ht⟩ := matrixSolverLoop_some mat outcome ((List.range mat.cols).drop 1)
    (fun i hi => by
      rw [hco]
      exact List.mem_range.mp (List.mem_of_mem_drop hi))
  obtain ⟨hr1, hc1, hwf1⟩ := solveDenseGo_shape mat outcome hro
  refine ⟨MakeDenseMatrix ((solveDenseGo mat outcome).arrayGo ++ t) mat.rows mat.cols,
    by simp only [MatrixSolver]; rw [ht]; rfl, rfl, rfl, ?_⟩
  intro i c hi hc
  show ((solveDenseGo mat outcome).arrayGo ++ t).getD (i * mat.cols + c) 0 = _
  rw [getD_append_lt _ _ _ _ (by
    rw [arrayGo_of_wf _ hwf1, hwf1, hr1, hc1, hco]
    exact row_major_lt hi hc)]
  rw [arrayGo_of_wf _ hwf1, DenseMatrix.get, hc1, hco]

theorem matrixSolver_solves (mat outcome : DM) (hsq : mat.rows = mat.cols)
    (hro : outcome.rows = mat.rows) (hco : outcome.cols = mat.cols) (hwo : outcome.wf)
    (hdet : detFlat mat ≠ 0) :
    ∃ R, MatrixSolver mat outcome = some R ∧ timesDense mat R = some outcome := by
  obtain ⟨R, hR, hRr, hRc, hget⟩ := matrixSolver_spec mat outcome hro hco
  refine ⟨R, hR, ?_⟩
  rw [timesDense, if_pos (by rw [hRr, hsq])]
  have hentry : ∀ i j, i < mat.rows → j < mat.cols →
      ∑ l ∈ Finset.range mat.cols, mat.get i l * R.get l j = outcome.get i j := by
    intro i j hi hj
    have hstep : ∀ l ∈ Finset.range mat.rows,
        mat.get i l * R.get l j = mat.get i l * (solveDenseGo mat outcome).get l j :=
      fun l hl => by rw [hget l j (Finset.mem_range.mp hl) hj]
    calc ∑ l ∈ Finset.range mat.cols, mat.get i l * R.get l j
        = ∑ l ∈ Finset.range mat.rows, mat.get i l * R.get l j := by rw [hsq]
      _ = ∑ l ∈ Finset.range mat.rows, mat.get i l * (solveDenseGo mat outcome).get l j :=
          Finset.sum_congr rfl hstep
      _ = outcome.get i j :=
          solveDenseGo_entry mat outcome hsq hro hdet i j hi (by rw [hco]; exact hj)
  suffices h : timesP mat R = outcome by rw [h]
  have e1 : outcome = ⟨mkElems mat.rows mat.cols outcome.get, mat.rows, mat.cols⟩ := by
    conv_lhs => rw [show outcome = ⟨outcome.elements, outcome.rows, outcome.cols⟩ from rfl,
      elements_eq_mkElems_of_wf outcome hwo]
    rw [hro, hco]
  rw [timesP, hRc, MakeDenseMatrix]
  conv_rhs => rw [e1]
  congr 1
  exact mkElems_congr _ _ _ _ fun i j hi hj => hentry i j hi hj

/-! ### ALS loop structure lemmas -/

theorem wf_timesP (A B : DM) : (timesP A B).wf := by
  simp [timesP, MakeDenseMatrix, DenseMatrix.wf, length_mkElems]

theorem get_transposeDM (M : DM) (i j : ℕ) (hi : i < M.cols) (hj : j < M.rows) :
    (transposeDM M).get i j = M.get j i :=
  getD_mkElems M.cols M.rows _ i j hi hj

theorem get_ddT (M : DM) (i j : ℕ) (hi : i < M.rows) (hj : j < M.cols) :
    (transposeDM (transposeDM M)).get i j = M.get i j := by
  rw [get_transposeDM (transposeDM M) i j hi hj, get_transposeDM M j i hj hi]

theorem tripleT (M : DM) :
    transposeDM (transposeDM (transposeDM M)) = transposeDM M := by
  have h : mkElems M.cols M.rows (fun i j => (transposeDM (transposeDM M)).get j i)
      = mkElems M.cols M.rows fun i j => M.get j i :=
    mkElems_congr _ _ _ _ fun i j hi hj => get_ddT M j i hj hi
  show DenseMatrix.mk
      (mkElems M.cols M.rows fun i j => (transposeDM (transposeDM M)).get j i) M.cols M.rows
    = DenseMatrix.mk (mkElems M.cols M.rows fun i j => M.get j i) M.cols M.rows
  rw [h]

theorem timesP_congr_right (A B B' : DM) (hc : B.cols = B'.cols)
    (hg : ∀ l j, l < A.cols → j < B.cols → B.get l j = B'.get l j) :
    timesP A B = timesP A B' := by
  show DenseMatrix.mk
      (mkElems A.rows B.cols fun i j => ∑ l ∈ Finset.range A.cols, A.get i l * B.get l j)
      A.rows B.cols
    = DenseMatrix.mk
      (mkElems A.rows B'.cols fun i j => ∑ l ∈ Finset.range A.cols, A.get i l * B'.get l j)
      A.rows B'.cols
  rw [← hc]
  congr 1
  refine mkElems_congr _ _ _ _ fun i j hi hj => ?_
  exact Finset.sum_congr rfl fun l hl => by
    rw [hg l j (Finset.mem_range.mp hl) hj]

theorem timesDense_congr_right (A B B' : DM) (hr : B.rows = B'.rows) (hc : B.cols = B'.cols)
    (hg : ∀ l j, l < A.cols → j < B.cols → B.get l j = B'.get l j) :
    timesDense A B = timesDense A B' := by
  unfold timesDense
  rw [hr]
  split
  · rw [timesP_congr_right A B B' hc hg]
  · rfl

theorem alsA_shape (k : ℕ) (Y : DM) (hYr : Y.rows = k) :
    (alsA k Y).rows = k ∧ (alsA k Y).cols = k ∧ (alsA k Y).wf := by
  have hcond : (timesP Y (transposeDM Y)).rows = (lamEye k).rows ∧
      (timesP Y (transposeDM Y)).cols = (lamEye k).cols := ⟨hYr, hYr⟩
  rw [alsA, addDenseGo, if_pos hcond]
  refine ⟨hYr, hYr, ?_⟩
  show (mkElems (timesP Y (transposeDM Y)).rows (timesP Y (transposeDM Y)).cols _).length = _
  rw [length_mkElems]
  rfl

theorem alsA'_eq_alsA (k : ℕ) (X : DM) : alsA' k X = alsA k X := rfl

theorem alsStep_spec (Q : DM) (k : ℕ) (hQr : Q.rows = k) (hQc : Q.cols = k)
    (XY : DM × DM) (hYr : XY.2.rows = k) (hYc : XY.2.cols = k) :
    ∃ R1 R2,
      MatrixSolver (alsA k XY.2) (alsB Q XY.2) = some R1 ∧ R1.rows = k ∧ R1.cols = k ∧
      MatrixSolver (alsA' k (transposeDM R1)) (alsB' Q (transposeDM R1)) = some R2 ∧
      R2.rows = k ∧ R2.cols = k ∧
      alsStep Q k XY = some (transposeDM (transposeDM R1), transposeDM R2) := by
  obtain ⟨hAr, hAc, hAwf⟩ := alsA_shape k XY.2 hYr
  have hBr : (alsB Q XY.2).rows = k := hYr
  have hBc : (alsB Q XY.2).cols = k := hQr
  obtain ⟨R1, hR1, hR1r, hR1c, hR1get⟩ :=
    matrixSolver_spec (alsA k XY.2) (alsB Q XY.2) (by rw [hBr, hAr]) (by rw [hBc, hAc])
  have hR1r' : R1.rows = k := by rw [hR1r, hAr]
  have hR1c' : R1.cols = k := by rw [hR1c, hAc]
  have hXr : (transposeDM R1).rows = k := hR1c'
  obtain ⟨hA'r, hA'c, hA'wf⟩ := alsA_shape k (transposeDM R1) hXr
  have hB'r : (alsB' Q (transposeDM R1)).rows = k := hXr
  have hB'c : (alsB' Q (transposeDM R1)).cols = k := hQc
  obtain ⟨R2, hR2, hR2r, hR2c, hR2get⟩ :=
    matrixSolver_spec (alsA' k (transposeDM R1)) (alsB' Q (transposeDM R1))
      (by rw [hB'r]; exact hA'r.symm) (by rw [hB'c]; exact hA'c.symm)
  refine ⟨R1, R2, hR1, hR1r', hR1c', hR2, by rw [hR2r]; exact hA'r, by rw [hR2c]; exact hA'c, ?_⟩
  have e1 : timesDense XY.2 (transposeDM XY.2) = some (timesP XY.2 (transposeDM XY.2)) :=
    if_pos rfl
  have e2 : timesDense XY.2 (transposeDM Q) = some (timesP XY.2 (transposeDM Q)) :=
    if_pos (by show XY.2.cols = Q.cols; rw [hYc, hQc])
  have e3 : MatrixSolver (addDenseGo (timesP XY.2 (transposeDM XY.2)) (lamEye k))
      (timesP XY.2 (transposeDM Q)) = some R1 := hR1
  have e4 : timesDense (transposeDM R1) (transposeDM (transposeDM R1))
      = some (timesP (transposeDM R1) (transposeDM (transposeDM R1))) := if_pos rfl
  have e5 : timesDense (transposeDM R1) Q = some (timesP (transposeDM R1) Q) :=
    if_pos (by show R1.rows = Q.rows; rw [hR1r', hQr])
  have e6 : MatrixSolver (addDenseGo (timesP (transposeDM R1) (transposeDM (transposeDM R1)))
      (lamEye k)) (timesP (transposeDM R1) Q) = some R2 := hR2
  simp only [alsStep]
  simp [e1, e2, e3, e4, e5, e6]

theorem alsTrace_succ (Q : DM) (k : ℕ) (rnd : ℕ → ℚ) (n : ℕ) :
    alsTrace Q k rnd (n + 1)
      = (alsStep Q k (alsTrace Q k rnd n)).getD (alsTrace Q k rnd n) := by
  show (fun XY => (alsStep Q k XY).getD XY)^[n + 1] (MakeXY Q k rnd) = _
  rw [Function.iterate_succ_apply']
  rfl

theorem alsTrace_shape (Q : DM) (k : ℕ) (rnd : ℕ → ℚ) (hQr : Q.rows = k) (hQc : Q.cols = k) :
    ∀ n, (alsTrace Q k rnd n).2.rows = k ∧ (alsTrace Q k rnd n).2.cols = k := by
  intro n
  induction n with
  | zero => exact ⟨rfl, hQc⟩
  | succ n ih =>
      obtain ⟨R1, R2, _, _, _, _, hR2r, hR2c, hstep⟩ :=
        alsStep_spec Q k hQr hQc _ ih.1 ih.2
      rw [alsTrace_succ, hstep, Option.getD_some]
      exact ⟨hR2c, hR2r⟩

theorem alsLoop_eq (Q : DM) (k : ℕ) (rnd : ℕ → ℚ) (hQr : Q.rows = k) (hQc : Q.cols = k) :
    ∀ n m, alsLoop Q k n (alsTrace Q k rnd m) = some (alsTrace Q k rnd (m + n)) := by
  intro n
  induction n with
  | zero => intro m; rfl
  | succ n ih =>
      intro m
      obtain ⟨hr, hc⟩ := alsTrace_shape Q k rnd hQr hQc m
      obtain ⟨R1, R2, _, _, _, _, _, _, hstep⟩ := alsStep_spec Q k hQr hQc _ hr hc
      show (alsStep Q k (alsTrace Q k rnd m)).bind (fun y => alsLoop Q k n y) = _
      rw [hstep, Option.some_bind]
      have htr : (transposeDM (transposeDM R1), transposeDM R2) = alsTrace Q k rnd (m + 1) := by
        rw [alsTrace_succ, hstep]; rfl
      rw [htr, ih (m + 1), show m + 1 + n = m + (n + 1) from by omega]

theorem als_eq_trace (Q : DM) (k : ℕ) (rnd : ℕ → ℚ) (hQr : Q.rows = k) (hQc : Q.cols = k)
    (T : ℕ) :
    ALS Q T k rnd = timesDense (alsTrace Q k rnd T).1 (alsTrace Q k rnd T).2 := by
  show (alsLoop Q k T (MakeXY Q k rnd)).bind (fun XY2 => timesDense XY2.1 XY2.2) = _
  rw [show MakeXY Q k rnd = alsTrace Q k rnd 0 from rfl, alsLoop_eq Q k rnd hQr hQc T 0,
    Option.some_bind, Nat.zero_add]

/-- Claim C1 (amended).  For a square rating matrix (Q.rows = Q.cols = k)
and any random stream and iteration budget T, ALS performs exactly T
iterations of the loop body and nothing else stops it: its result is the
product X·Y of the T-th trace state.  Whenever the per-iteration system
matrices are nonsingular, each iteration i solves A·Z = B (A = Y·Yᵗ +
lambda·I, B = Y·Qᵗ) with Z the state X held at the end of the iteration
(so the intermediate factor of the claim is X = Zᵗ), and then solves
A'·Y₀ = B' (A' = X·Xᵗ + lambda·I, B' = X·Q built from that intermediate
X) — but stores Y as the TRANSPOSE Y₀ᵗ of the solution, not the solution
itself, and ends the iteration holding the transposed X factor. -/
theorem als_iteration_structure (Q : DM) (k T : ℕ) (rnd : ℕ → ℚ)
    (hQr : Q.rows = k) (hQc : Q.cols = k)
    (hsolv : ∀ i, i < T →
      detFlat (alsA k (alsTrace Q k rnd i).2) ≠ 0 ∧
      detFlat (alsA' k (transposeDM (alsTrace Q k rnd (i + 1)).1)) ≠ 0) :
    (∀ i, i < T →
      timesDense (alsA k (alsTrace Q k rnd i).2) ((alsTrace Q k rnd (i + 1)).1)
        = some (alsB Q (alsTrace Q k rnd i).2) ∧
      timesDense (alsA' k (transposeDM (alsTrace Q k rnd (i + 1)).1))
          (transposeDM ((alsTrace Q k rnd (i + 1)).2))
        = some (alsB' Q (transposeDM (alsTrace Q k rnd (i + 1)).1)))
    ∧ ALS Q T k rnd = timesDense (alsTrace Q k rnd T).1 (alsTrace Q k rnd T).2 := by
  refine ⟨?_, als_eq_trace Q k rnd hQr hQc T⟩
  intro i hi
  obtain ⟨hr, hc⟩ := alsTrace_shape Q k rnd hQr hQc i
  obtain ⟨R1, R2, hR1, hR1r, hR1c, hR2, hR2r, hR2c, hstep⟩ :=
    alsStep_spec Q k hQr hQc _ hr hc
  have htr : alsTrace Q k rnd (i + 1) = (transposeDM (transposeDM R1), transposeDM R2) := by
    rw [alsTrace_succ, hstep]; rfl
  obtain ⟨hdet1, hdet2⟩ := hsolv i hi
  rw [htr] at hdet2 ⊢
  rw [tripleT] at hdet2 ⊢
  obtain ⟨hAr, hAc, _⟩ := alsA_shape k (alsTrace Q k rnd i).2 hr
  constructor
  · obtain ⟨R1', hR1', hTD⟩ := matrixSolver_solves
      (alsA k (alsTrace Q k rnd i).2) (alsB Q (alsTrace Q k rnd i).2)
      (by rw [hAr, hAc]) (by rw [hAr]; exact hr) (by rw [hAc]; exact hQr)
      (wf_timesP _ _) hdet1
    have hRR : R1' = R1 := Option.some.inj (hR1' ▸ hR1)
    rw [hRR] at hTD
    rw [← hTD]
    refine timesDense_congr_right _ _ _ rfl rfl fun l j hl hj => ?_
    exact get_ddT R1 l j (by rw [hR1r]; rw [hAc] at hl; exact hl) hj
  · have hXr : (transposeDM R1).rows = k := hR1c
    obtain ⟨hA'r, hA'c, _⟩ := alsA_shape k (transposeDM R1) hXr
    obtain ⟨R2', hR2', hTD2⟩ := matrixSolver_solves
      (alsA' k (transposeDM R1)) (alsB' Q (transposeDM R1))
      (by rw [alsA'_eq_alsA, hA'r, hA'c]) (by rw [alsA'_eq_alsA, hA'r]; exact hXr)
      (by rw [alsA'_eq_alsA, hA'c]; exact hQc) (wf_timesP _ _) hdet2
    have hRR : R2' = R2 := Option.some.inj (hR2' ▸ hR2)
    rw [hRR] at hTD2
    rw [← hTD2]
    refine timesDense_congr_right _ _ _ rfl rfl fun l j hl hj => ?_
    refine get_ddT R2 l j ?_ hj
    rw [alsA'_eq_alsA, hA'c] at hl
    rw [hR2r]
    exact hl

/-! ### GetError computation -/

theorem getError_run (W Q X Y : DM) (hXY : X.cols = Y.rows) (hXr : X.rows = Q.rows)
    (hYc : Y.cols = Q.cols) (hWr : W.rows = Q.rows) (hWc : W.cols = Q.cols)
    (hwW : W.wf) :
    ∃ p : ℚ × DM, GetError W Q X Y = some p ∧
      p.1 = ∑ i ∈ Finset.range Q.rows, ∑ j ∈ Finset.range Q.cols,
        (W.get i j * (Q.get i j - ∑ l ∈ Finset.range X.cols, X.get i l * Y.get l j)) ^ 2 ∧
      p.2.rows = Q.rows ∧ p.2.cols = Q.cols ∧
      ∀ i j, i < Q.rows → j < Q.cols →
        p.2.get i j
          = (W.get i j * (Q.get i j - ∑ l ∈ Finset.range X.cols, X.get i l * Y.get l j)) ^ 2 := by
  have e1 : timesDense X Y = some (timesP X Y) := if_pos hXY
  set dot := timesP X Y with hdot
  have hsub : Q.rows = dot.rows ∧ Q.cols = dot.cols := ⟨hXr.symm, hYc.symm⟩
  have e2 : subDenseGo Q dot
      = MakeDenseMatrix (mkElems Q.rows Q.cols fun i j => Q.get i j - dot.get i j)
        Q.rows Q.cols := by rw [subDenseGo, if_pos hsub]
  set Qsub := MakeDenseMatrix (mkElems Q.rows Q.cols fun i j => Q.get i j - dot.get i j)
    Q.rows Q.cols with hQsub
  have hwQs : Qsub.wf := by
    show (mkElems Q.rows Q.cols _).length = Q.rows * Q.cols
    exact length_mkElems _ _ _
  have hlenQs : Qsub.arrayGo.length = Q.rows * Q.cols := by
    rw [arrayGo_of_wf _ hwQs]; exact hwQs
  have hlenW : W.arrayGo.length = Q.rows * Q.cols := by
    rw [arrayGo_of_wf _ hwW, hwW, hWr, hWc]
  have e3 : SimpleTimes Qsub W = some (MakeDenseMatrix
      (List.zipWith (fun m w => w * m) Qsub.arrayGo W.arrayGo) Q.rows Q.cols) := by
    rw [SimpleTimes, if_pos (by rw [hlenQs, hlenW])]
    rfl
  set ProdM := MakeDenseMatrix (List.zipWith (fun m w => w * m) Qsub.arrayGo W.arrayGo)
    Q.rows Q.cols with hProdM
  have hlenP : ProdM.arrayGo.length = Q.rows * Q.cols := by
    show ((List.zipWith (fun m w => w * m) Qsub.arrayGo W.arrayGo).take
      (Q.rows * Q.cols)).length = Q.rows * Q.cols
    rw [List.length_take, List.length_zipWith, hlenQs, hlenW]
    omega
  have e4 : SimpleTimes ProdM ProdM = some (MakeDenseMatrix
      (List.zipWith (fun m w => w * m) ProdM.arrayGo ProdM.arrayGo) Q.rows Q.cols) := by
    rw [SimpleTimes, if_pos rfl]
    rfl
  set tosum := MakeDenseMatrix (List.zipWith (fun m w => w * m) ProdM.arrayGo ProdM.arrayGo)
    Q.rows Q.cols with htosum
  have hGE : GetError W Q X Y = some (SumMatrix tosum, tosum) := by
    simp only [GetError]
    simp [e1, e2, e3, e4]
  -- entry values
  have hdotget : ∀ i j, i < Q.rows → j < Q.cols →
      dot.get i j = ∑ l ∈ Finset.range X.cols, X.get i l * Y.get l j := by
    intro i j hi hj
    exact getD_mkElems X.rows Y.cols _ i j (by rw [hXr]; exact hi) (by rw [hYc]; exact hj)
  have hPget : ∀ n, n < Q.rows * Q.cols →
      ProdM.arrayGo.getD n 0 = W.elements.getD n 0 * Qsub.elements.getD n 0 := by
    intro n hn
    have h1 : ProdM.arrayGo.getD n 0
        = (List.zipWith (fun m w => w * m) Qsub.arrayGo W.arrayGo).getD n 0 := by
      show ((List.zipWith (fun m w => w * m) Qsub.arrayGo W.arrayGo).take
        (Q.rows * Q.cols)).getD n 0 = _
      exact getD_take_lt _ _ _ _ hn
    rw [h1, getD_zipWith _ _ _ _ (by rw [hlenQs]; exact hn) (by rw [hlenW]; exact hn)]
    rw [arrayGo_of_wf _ hwQs, arrayGo_of_wf _ hwW]
  have htget : ∀ n, n < Q.rows * Q.cols →
      tosum.elements.getD n 0 = ProdM.arrayGo.getD n 0 * ProdM.arrayGo.getD n 0 := by
    intro n hn
    show (List.zipWith (fun m w => w * m) ProdM.arrayGo ProdM.arrayGo).getD n 0 = _
    rw [getD_zipWith _ _ _ _ (by rw [hlenP]; exact hn) (by rw [hlenP]; exact hn)]
  have hQsget : ∀ i j, i < Q.rows → j < Q.cols →
      Qsub.elements.getD (i * Q.cols + j) 0
        = Q.get i j - ∑ l ∈ Finset.range X.cols, X.get i l * Y.get l j := by
    intro i j hi hj
    show (mkElems Q.rows Q.cols fun i j => Q.get i j - dot.get i j).getD (i * Q.cols + j) 0 = _
    rw [getD_mkElems _ _ _ _ _ hi hj, hdotget i j hi hj]
  have hentry : ∀ i j, i < Q.rows → j < Q.cols →
      tosum.elements.getD (i * Q.cols + j) 0
        = (W.get i j * (Q.get i j - ∑ l ∈ Finset.range X.cols, X.get i l * Y.get l j)) ^ 2 := by
    intro i j hi hj
    have hn := row_major_lt hi hj
    rw [htget _ hn, hPget _ hn, hQsget i j hi hj]
    have hW : W.elements.getD (i * Q.cols + j) 0 = W.get i j := by
      rw [DenseMatrix.get, hWc]
    rw [hW]
    ring
  refine ⟨(SumMatrix tosum, tosum), hGE, ?_, rfl, rfl, ?_⟩
  · show SumMatrix tosum = _
    have hlent : tosum.elements.length = Q.rows * Q.cols := by
      show (List.zipWith (fun m w => w * m) ProdM.arrayGo ProdM.arrayGo).length = _
      rw [List.length_zipWith, hlenP]
      omega
    have hwt : tosum.wf := hlent
    rw [SumMatrix, foldl_add_eq, Rat.zero_add, arrayGo_of_wf _ hwt, sum_eq_sum_getD, hlent,
      sum_range_mul]
    refine Finset.sum_congr rfl fun i hi => Finset.sum_congr rfl fun j hj => ?_
    exact hentry i j (Finset.mem_range.mp hi) (Finset.mem_range.mp hj)
  · intro i j hi hj
    show tosum.elements.getD (i * tosum.cols + j) 0 = _
    have : tosum.cols = Q.cols := rfl
    rw [this]
    exact hentry i j hi hj

/-! ### Remaining support lemmas -/

theorem getD_map_lt {α β : Type} (f : α → β) (l : List α) (d : α) (d' : β) (n : ℕ)
    (h : n < l.length) : (l.map f).getD n d' = f (l.getD n d) := by
  rw [getD_of_lt _ _ _ (by simpa using h), getD_of_lt _ _ _ h, List.getElem_map]

theorem scaleDM_get (c : ℚ) (M : DM) (i j : ℕ) (hi : i < M.rows) (hj : j < M.cols) :
    (scaleDM c M).get i j = c * M.get i j :=
  getD_mkElems M.rows M.cols _ i j hi hj

theorem foldlMax_spec (l : List ℚ) (a : ℚ) :
    a ≤ l.foldl (fun m v => if v > m then v else m) a ∧
    (∀ v ∈ l, v ≤ l.foldl (fun m v => if v > m then v else m) a) ∧
    (l.foldl (fun m v => if v > m then v else m) a = a ∨
      l.foldl (fun m v => if v > m then v else m) a ∈ l) := by
  induction l generalizing a with
  | nil => simp
  | cons x xs ih =>
      obtain ⟨h1, h2, h3⟩ := ih (if x > a then x else a)
      have hax : a ≤ if x > a then x else a := by
        split
        · exact le_of_lt (by assumption)
        · exact le_refl a
      have hxx : x ≤ if x > a then x else a := by
        split
        · exact le_refl x
        · exact le_of_not_lt (by assumption)
      simp only [List.foldl_cons]
      refine ⟨le_trans hax h1, ?_, ?_⟩
      · intro v hv
        rcases List.mem_cons.mp hv with h | h
        · rw [h]; exact le_trans hxx h1
        · exact h2 v h
      · rcases h3 with h | h
        · rw [h]
          by_cases hxa : x > a
          · rw [if_pos hxa]; exact Or.inr (by simp)
          · rw [if_neg hxa]; exact Or.inl rfl
        · exact Or.inr (List.mem_cons_of_mem x h)

/-! ### Claim theorems -/

/-- Claim C10 (confirmed).  MatrixMax returns the maximum of 0 and the
largest viewed entry: the result is at least 0, bounds every entry, is 0
or one of the entries, and is 0 (not the true maximum) whenever every
entry is strictly negative. -/
theorem matrixMax_clamped (mat : DM) :
    0 ≤ MatrixMax mat ∧ (∀ v ∈ mat.arrayGo, v ≤ MatrixMax mat) ∧
    (MatrixMax mat = 0 ∨ MatrixMax mat ∈ mat.arrayGo) ∧
    ((∀ v ∈ mat.arrayGo, v < 0) → MatrixMax mat = 0) := by
  obtain ⟨h1, h2, h3⟩ := foldlMax_spec mat.arrayGo 0
  refine ⟨h1, h2, h3, fun hneg => ?_⟩
  rcases h3 with h | h
  · exact h
  · exact absurd h1 (not_le.mpr (hneg _ h))

/-- Witness for C10: on a matrix with all entries strictly negative,
MatrixMax returns 0. -/
theorem matrixMax_clamped_witness :
    (∀ v ∈ (⟨[-1, -2], 1, 2⟩ : DM).arrayGo, v < 0) ∧ MatrixMax ⟨[-1, -2], 1, 2⟩ = 0 :=
  ⟨by decide, (matrixMax_clamped ⟨[-1, -2], 1, 2⟩).2.2.2 (by decide)⟩

/-- Claim C6 (confirmed).  MakeWeightMatrix produces a mask of the same
shape as its input whose entry is 0 exactly when the input entry is the
missing sentinel (0.0 or NaN), and 1 otherwise. -/
theorem makeWeightMatrix_mask (mat : DenseMatrix GoFloat) (hwf : mat.wf)
    (i j : ℕ) (hi : i < mat.rows) (hj : j < mat.cols) :
    (MakeWeightMatrix mat).rows = mat.rows ∧ (MakeWeightMatrix mat).cols = mat.cols ∧
    ((MakeWeightMatrix mat).get i j = 0 ↔ mat.getO i j = some 0 ∨ mat.getO i j = none) ∧
    (¬(mat.getO i j = some 0 ∨ mat.getO i j = none) → (MakeWeightMatrix mat).get i j = 1) := by
  have hidx : i * mat.cols + j < mat.arrayGo.length := by
    rw [arrayGo_of_wf _ hwf, hwf]
    exact row_major_lt hi hj
  have hgo : mat.arrayGo.getD (i * mat.cols + j) none = mat.getO i j := by
    rw [DenseMatrix.getO, arrayGo_of_wf _ hwf]
  have hget : (MakeWeightMatrix mat).get i j
      = if mat.getO i j = some 0 ∨ mat.getO i j = none then (0 : ℚ) else 1 := by
    show (mat.arrayGo.map fun v => if v = some 0 ∨ v = none then (0 : ℚ) else 1).getD
      (i * mat.cols + j) 0 = _
    rw [getD_map_lt _ _ none _ _ hidx, hgo]
  refine ⟨rfl, rfl, ?_, fun h => by rw [hget, if_neg h]⟩
  rw [hget]
  split
  · simp [*]
  · simp only [*, iff_false]
    norm_num

/-- Witness for C6 at a 1 × 3 matrix holding the sentinel 0, NaN, and an
observed rating 2. -/
theorem makeWeightMatrix_mask_witness :
    (MakeWeightMatrix ⟨[some 0, none, some 2], 1, 3⟩).rows = 1 ∧
    (MakeWeightMatrix ⟨[some 0, none, some 2], 1, 3⟩).cols = 3 ∧
    ((MakeWeightMatrix ⟨[some 0, none, some 2], 1, 3⟩).get 0 2 = 0 ↔
      (⟨[some 0, none, some 2], 1, 3⟩ : DenseMatrix GoFloat).getO 0 2 = some 0 ∨
      (⟨[some 0, none, some 2], 1, 3⟩ : DenseMatrix GoFloat).getO 0 2 = none) ∧
    (¬((⟨[some 0, none, some 2], 1, 3⟩ : DenseMatrix GoFloat).getO 0 2 = some 0 ∨
        (⟨[some 0, none, some 2], 1, 3⟩ : DenseMatrix GoFloat).getO 0 2 = none) →
      (MakeWeightMatrix ⟨[some 0, none, some 2], 1, 3⟩).get 0 2 = 1) :=
  makeWeightMatrix_mask ⟨[some 0, none, some 2], 1, 3⟩ (by decide) 0 2 (by decide) (by decide)

/-- Claim C8 (confirmed).  With an iteration budget of 0 the ALS loop body
never runs and ALS returns exactly the product X·Y of the freshly
initialised factor matrices, with no linear solve performed. -/
theorem als_zero_iterations (Q : DM) (k : ℕ) (rnd : ℕ → ℚ) :
    ALS Q 0 k rnd = timesDense (MakeXY Q k rnd).1 (MakeXY Q k rnd).2 := rfl

/-- Claim C9 (amended).  W is not read-only during Predict: the caller's W
comes back scaled entrywise by MatrixMax Q (the Go statement
W.Scale(maxRating) mutates the caller's matrix in place). -/
theorem predict_w_final (W Q Q_hat : DM) (i j : ℕ) (hi : i < W.rows) (hj : j < W.cols) :
    ((Predict W Q Q_hat).2).get i j = MatrixMax Q * W.get i j := by
  show (predictW W Q).get i j = _
  exact scaleDM_get _ _ _ _ hi hj

/-- Witness for the amended C9. -/
theorem predict_w_final_witness :
    ((Predict ⟨[1, 0], 1, 2⟩ ⟨[5, 1], 1, 2⟩ ⟨[1, 2], 1, 2⟩).2).get 0 0
      = MatrixMax ⟨[5, 1], 1, 2⟩ * (⟨[1, 0], 1, 2⟩ : DM).get 0 0 :=
  predict_w_final ⟨[1, 0], 1, 2⟩ ⟨[5, 1], 1, 2⟩ ⟨[1, 2], 1, 2⟩ 0 0 (by decide) (by decide)

/- Rational arithmetic is irreducible by default; the concrete
evaluations below unfold it in the kernel. -/
unseal Rat.mul Rat.add Rat.inv Rat.sub

/-- Counterexample to C9 as stated: after Predict the caller's W differs
from the W that was passed in (here [1,0] becomes [5,0]). -/
theorem predict_scales_w :
    (Predict ⟨[1, 0], 1, 2⟩ ⟨[5, 1], 1, 2⟩ ⟨[1, 2], 1, 2⟩).2 ≠ (⟨[1, 0], 1, 2⟩ : DM) := by
  decide

/-- Claim C4 (confirmed).  For compatibly shaped inputs GetError returns
exactly the elementwise weighted squared error
E = sum over i, j of (W[i][j] * (Q[i][j] - (X·Y)[i][j]))^2. -/
theorem getError_value (W Q X Y : DM) (hXY : X.cols = Y.rows) (hXr : X.rows = Q.rows)
    (hYc : Y.cols = Q.cols) (hWr : W.rows = Q.rows) (hWc : W.cols = Q.cols) (hwW : W.wf) :
    (GetError W Q X Y).map Prod.fst
      = some (∑ i ∈ Finset.range Q.rows, ∑ j ∈ Finset.range Q.cols,
          (W.get i j * (Q.get i j - ∑ l ∈ Finset.range X.cols, X.get i l * Y.get l j)) ^ 2) := by
  obtain ⟨p, hp, h1, _, _, _⟩ := getError_run W Q X Y hXY hXr hYc hWr hWc hwW
  rw [hp]
  simp [h1]

/-- Witness for C4 at W = [[1]], Q = [[3]], X = [[1]], Y = [[1]]
(the error is (1·(3−1))² = 4). -/
theorem getError_value_witness :
    (GetError ⟨[1], 1, 1⟩ ⟨[3], 1, 1⟩ ⟨[1], 1, 1⟩ ⟨[1], 1, 1⟩).map Prod.fst
      = some (∑ i ∈ Finset.range (⟨[3], 1, 1⟩ : DM).rows,
          ∑ j ∈ Finset.range (⟨[3], 1, 1⟩ : DM).cols,
          ((⟨[1], 1, 1⟩ : DM).get i j * ((⟨[3], 1, 1⟩ : DM).get i j
            - ∑ l ∈ Finset.range (⟨[1], 1, 1⟩ : DM).cols,
                (⟨[1], 1, 1⟩ : DM).get i l * (⟨[1], 1, 1⟩ : DM).get l j)) ^ 2) :=
  getError_value ⟨[1], 1, 1⟩ ⟨[3], 1, 1⟩ ⟨[1], 1, 1⟩ ⟨[1], 1, 1⟩ rfl rfl rfl rfl rfl (by decide)

/-- Claim C5 (amended).  GetError computes the weighted squared error but
is not pure: the caller's Q is overwritten in place and comes back holding
the squared masked residual (W ⊙ (Q − X·Y)) ⊙ (W ⊙ (Q − X·Y)); W, X and Y
are not written. -/
theorem getError_final_q (W Q X Y : DM) (hXY : X.cols = Y.rows) (hXr : X.rows = Q.rows)
    (hYc : Y.cols = Q.cols) (hWr : W.rows = Q.rows) (hWc : W.cols = Q.cols) (hwW : W.wf) :
    ∃ p : ℚ × DM, GetError W Q X Y = some p ∧ p.2.rows = Q.rows ∧ p.2.cols = Q.cols ∧
      ∀ i j, i < Q.rows → j < Q.cols →
        p.2.get i j
          = (W.get i j * (Q.get i j - ∑ l ∈ Finset.range X.cols, X.get i l * Y.get l j)) ^ 2 := by
  obtain ⟨p, hp, _, h2, h3, h4⟩ := getError_run W Q X Y hXY hXr hYc hWr hWc hwW
  exact ⟨p, hp, h2, h3, h4⟩

/-- Witness for the amended C5. -/
theorem getError_final_q_witness :
    ∃ p : ℚ × DM, GetError ⟨[1], 1, 1⟩ ⟨[3], 1, 1⟩ ⟨[1], 1, 1⟩ ⟨[1], 1, 1⟩ = some p ∧
      p.2.rows = (⟨[3], 1, 1⟩ : DM).rows ∧ p.2.cols = (⟨[3], 1, 1⟩ : DM).cols ∧
      ∀ i j, i < (⟨[3], 1, 1⟩ : DM).rows → j < (⟨[3], 1, 1⟩ : DM).cols →
        p.2.get i j = ((⟨[1], 1, 1⟩ : DM).get i j * ((⟨[3], 1, 1⟩ : DM).get i j
          - ∑ l ∈ Finset.range (⟨[1], 1, 1⟩ : DM).cols,
              (⟨[1], 1, 1⟩ : DM).get i l * (⟨[1], 1, 1⟩ : DM).get l j)) ^ 2 :=
  getError_final_q ⟨[1], 1, 1⟩ ⟨[3], 1, 1⟩ ⟨[1], 1, 1⟩ ⟨[1], 1, 1⟩ rfl rfl rfl rfl rfl (by decide)

/-- Counterexample to C5 as stated: GetError(W=[[1]], Q=[[3]], X=[[1]],
Y=[[1]]) returns error 4 and leaves the caller's Q holding [[4]] ≠ [[3]],
so the inputs are not unchanged. -/
theorem getError_mutates_q :
    GetError ⟨[1], 1, 1⟩ ⟨[3], 1, 1⟩ ⟨[1], 1, 1⟩ ⟨[1], 1, 1⟩ = some (4, ⟨[4], 1, 1⟩) ∧
    (⟨[4], 1, 1⟩ : DM) ≠ ⟨[3], 1, 1⟩ := by decide

/-- Claim C2 (code_bug evaluation).  At W = [[1,0,0]], Q = [[5,0,0]],
Q_hat = [[9,8,7]] the adjusted scores are [0, 2.5, 0], whose argmax is
item 1, yet Predict returns item 0: line 229 reads the raw Q_hat row
(rowSlice on Q_hat) instead of the adjusted Qhat, re-recommending the
already-rated item. -/
theorem predict_raw_row_bug :
    (Predict ⟨[1, 0, 0], 1, 3⟩ ⟨[5, 0, 0], 1, 3⟩ ⟨[9, 8, 7], 1, 3⟩).1 = [0] ∧
    argmax (rowSlice (predictAdjusted ⟨[1, 0, 0], 1, 3⟩ ⟨[5, 0, 0], 1, 3⟩ ⟨[9, 8, 7], 1, 3⟩) 0)
      = 1 := by decide

/-- Claim C3 (code_bug evaluation).  On the singular system A = [[0]],
B = [[1]] the solve fails (SolveDense reports an error), yet MatrixSolver
— which discards that error — still hands the caller a matrix, and the
product of A with that matrix is [[0]] ≠ B: the failure is silently
swallowed instead of being surfaced and stopping the fit. -/
theorem matrix_solver_silent_failure :
    solveDense ⟨[0], 1, 1⟩ ⟨[1], 1, 1⟩ = none ∧
    (MatrixSolver ⟨[0], 1, 1⟩ ⟨[1], 1, 1⟩).map (timesDense ⟨[0], 1, 1⟩)
      = some (some ⟨[0], 1, 1⟩) ∧
    (⟨[0], 1, 1⟩ : DM) ≠ ⟨[1], 1, 1⟩ := by decide

/-- Claim C7 (amended).  For an invertible k × k matrix A and a k × k
right-hand side B, MatrixSolver returns a matrix R with A·R = B, i.e. it
computes A⁻¹·B.  (For a k × m right-hand side with m ≠ k the claim fails:
see the counterexample.) -/
theorem matrixSolver_square_solves (A B : DM) (k : ℕ) (hAr : A.rows = k) (hAc : A.cols = k)
    (hBr : B.rows = k) (hBc : B.cols = k) (hwB : B.wf) (hdet : detFlat A ≠ 0) :
    ∃ R, MatrixSolver A B = some R ∧ timesDense A R = some B :=
  matrixSolver_solves A B (by rw [hAr, hAc]) (by rw [hBr, hAr]) (by rw [hBc, hAc]) hwB hdet

/-- Witness for the amended C7 at A = [[2]], B = [[3]]. -/
theorem matrixSolver_square_solves_witness :
    ∃ R, MatrixSolver ⟨[2], 1, 1⟩ ⟨[3], 1, 1⟩ = some R ∧
      timesDense ⟨[2], 1, 1⟩ R = some ⟨[3], 1, 1⟩ :=
  matrixSolver_square_solves ⟨[2], 1, 1⟩ ⟨[3], 1, 1⟩ 1 rfl rfl rfl rfl (by decide) (by decide)

/-- Counterexample to C7 as stated: with the invertible 1 × 1 matrix
A = [[1]] and the 1 × 2 right-hand side B = [[2,3]], MatrixSolver returns
a 1 × 1 matrix (the assembled result always has A's shape), and
A times that result is [[2]], not B — no matrix satisfying A·X = B is
returned. -/
theorem matrixSolver_nonsquare_rhs :
    detFlat ⟨[1], 1, 1⟩ ≠ 0 ∧
    MatrixSolver ⟨[1], 1, 1⟩ ⟨[2, 3], 1, 2⟩ = some ⟨[2, 3], 1, 1⟩ ∧
    timesDense ⟨[1], 1, 1⟩ ⟨[2, 3], 1, 1⟩ = some ⟨[2], 1, 1⟩ ∧
    (⟨[2], 1, 1⟩ : DM) ≠ ⟨[2, 3], 1, 2⟩ := by decide

/-- Witness for the amended C1 on a 1 × 1 rating matrix with one
iteration: both per-iteration systems are nonsingular and the
characterisation holds. -/
theorem als_iteration_structure_witness :
    (∀ i, i < 1 →
      timesDense (alsA 1 (alsTrace ⟨[2], 1, 1⟩ 1 (fun _ => 1 / 2) i).2)
          ((alsTrace ⟨[2], 1, 1⟩ 1 (fun _ => 1 / 2) (i + 1)).1)
        = some (alsB ⟨[2], 1, 1⟩ (alsTrace ⟨[2], 1, 1⟩ 1 (fun _ => 1 / 2) i).2) ∧
      timesDense (alsA' 1 (transposeDM (alsTrace ⟨[2], 1, 1⟩ 1 (fun _ => 1 / 2) (i + 1)).1))
          (transposeDM ((alsTrace ⟨[2], 1, 1⟩ 1 (fun _ => 1 / 2) (i + 1)).2))
        = some (alsB' ⟨[2], 1, 1⟩
            (transposeDM (alsTrace ⟨[2], 1, 1⟩ 1 (fun _ => 1 / 2) (i + 1)).1)))
    ∧ ALS ⟨[2], 1, 1⟩ 1 1 (fun _ => 1 / 2)
        = timesDense (alsTrace ⟨[2], 1, 1⟩ 1 (fun _ => 1 / 2) 1).1
            (alsTrace ⟨[2], 1, 1⟩ 1 (fun _ => 1 / 2) 1).2 :=
  als_iteration_structure ⟨[2], 1, 1⟩ 1 1 (fun _ => 1 / 2) rfl rfl (by decide)

set_option maxRecDepth 10000

/-- Counterexample to C1 as stated: on the 2 × 2 instance below the first
iteration's Y half-step system A' is nonsingular, yet the stored new Y
does not satisfy A'·Y = B' — the code stores the transpose of the
solution, not the solution. -/
theorem als_y_update_not_solution :
    detFlat (alsA' 2 (transposeDM (alsTrace ⟨[1, 2, 3, 4], 2, 2⟩ 2
        (fun n => [1/5, 2/5, 3/5, 4/5, 1/5, 1/5, 0, 2/5].getD n 0) 1).1)) ≠ 0 ∧
    timesDense (alsA' 2 (transposeDM (alsTrace ⟨[1, 2, 3, 4], 2, 2⟩ 2
        (fun n => [1/5, 2/5, 3/5, 4/5, 1/5, 1/5, 0, 2/5].getD n 0) 1).1))
        ((alsTrace ⟨[1, 2, 3, 4], 2, 2⟩ 2
          (fun n => [1/5, 2/5, 3/5, 4/5, 1/5, 1/5, 0, 2/5].getD n 0) 1).2)
      ≠ some (alsB' ⟨[1, 2, 3, 4], 2, 2⟩ (transposeDM (alsTrace ⟨[1, 2, 3, 4], 2, 2⟩ 2
          (fun n => [1/5, 2/5, 3/5, 4/5, 1/5, 1/5, 0, 2/5].getD n 0) 1).1)) := by
  decide
